import Mathlib

/-!
Verification of the inline-widget module of tui.editor (widget delimiter
codec, widget rule registry, text segmentation engine and widget content
extractor).  Strings are modelled as `List Char`; every function below is a
direct translation of the corresponding TypeScript function of the module.
-/

set_option linter.unusedVariables false

/-- Predicate describing the character class `\s` of a JavaScript regular
expression (the ECMAScript WhiteSpace and LineTerminator sets). -/
def isJsSpace (c : Char) : Bool :=
  c.val == 9 || c.val == 10 || c.val == 11 || c.val == 12 || c.val == 13 ||
  c.val == 32 || c.val == 0xa0 || c.val == 0x1680 ||
  (0x2000 ≤ c.val && c.val ≤ 0x200a) ||
  c.val == 0x2028 || c.val == 0x2029 || c.val == 0x202f || c.val == 0x205f ||
  c.val == 0x3000 || c.val == 0xfeff

/-- Semantics of a JavaScript regular expression, shallowly: given the text
starting at some position, `p text` is `some n` when the regex matches the
first `n` characters at this position, and `none` when it does not match at
this position.  `search`, `test` and `match` are derived below. -/
def Pattern : Type := List Char → Option Nat

/-- Model of `String.prototype.search`: index of the first position at which
the pattern matches, `none` when there is no match (JavaScript `-1`). -/
def patSearch (p : Pattern) : List Char → Option Nat
  | [] => if (p []).isSome then some 0 else none
  | c :: cs => if (p (c :: cs)).isSome then some 0 else (patSearch p cs).map (· + 1)

/-- Model of `RegExp.prototype.test`. -/
def patTest (p : Pattern) (l : List Char) : Bool :=
  (patSearch p l).isSome

/-- Model of `String.prototype.match(re)[0]` for a non-global regex: the
literal text of the first match, `none` when the string does not match. -/
def pmatchFirst (p : Pattern) (l : List Char) : Option (List Char) :=
  match patSearch p l with
  | none => none
  | some i =>
    match p (l.drop i) with
    | some n => some ((l.drop i).take n)
    | none => none

/-- Model of `String.prototype.replace(re, '')` for a non-global regex:
removes the first match of the pattern. -/
def replaceFirst (p : Pattern) : List Char → List Char
  | [] =>
    match p [] with
    | some _ => []
    | none => []
  | c :: cs =>
    match p (c :: cs) with
    | some n => (c :: cs).drop n
    | none => c :: replaceFirst p cs

/-- The widget-open marker regex `/\$\$widget\d+\s/` (source name:
`reWidgetPrefix`).  It matches `$$widget`, then a maximal non-empty run of
digits, then one whitespace character; the digit run is maximal because `\d+`
is greedy and no whitespace character is a digit. -/
def reWidgetMarker : Pattern := fun l =>
  match l with
  | '$' :: '$' :: 'w' :: 'i' :: 'd' :: 'g' :: 'e' :: 't' :: rest =>
    match rest.takeWhile Char.isDigit, rest.dropWhile Char.isDigit with
    | [], _ => none
    | _, [] => none
    | ds, c :: _ => if isJsSpace c then some (9 + ds.length) else none
  | _ => none

/-- Model of `String.prototype.replace('$$', '')`: removes the first
occurrence of the literal two-character delimiter `$$`. -/
def removeFirstDollars : List Char → List Char
  | [] => []
  | '$' :: '$' :: cs => cs
  | c :: cs => c :: removeFirstDollars cs

/-- Recursion kernel of `unwrapWidgetSyntax`; the fuel only bounds the
recursion depth (the depth is at most the length of the input, see
`unwrapF_eq_unwrap`), the body is the exact translation of the source:
locate the first occurrence of the widget-open marker, keep the text before
it, and recurse on the remainder with the matched marker and the first bare
`$$` removed. -/
def unwrapF : Nat → List Char → List Char
  | 0, text => text
  | fuel + 1, text =>
    match patSearch reWidgetMarker text with
    | none => text
    | some index =>
      text.take index ++
        unwrapF fuel (removeFirstDollars (replaceFirst reWidgetMarker (text.drop index)))

/-- Translation of `unwrapWidgetSyntax` from the source. -/
def unwrapWidgetSyntax (text : List Char) : List Char :=
  unwrapF text.length text

/-- Model of `content.replaceAll('$$', dollar zwsp dollar)`: every non-overlapping
occurrence of `$$`, scanned left to right, gets a zero-width space inserted
between the two dollar signs. -/
def escapeDollars : List Char → List Char
  | [] => []
  | '$' :: '$' :: cs => '$' :: '\u200B' :: '$' :: escapeDollars cs
  | c :: cs => c :: escapeDollars cs

/-- Translation of `createWidgetContent` from the source:
`` `$$${info} ${safeContent}$$` ``. -/
def createWidgetContent (info content : List Char) : List Char :=
  '$' :: '$' :: (info ++ ' ' :: (escapeDollars content ++ ['$', '$']))

/-- A widget rule: a pattern (regex) plus a conversion function `toDOM`.
The render result type is abstract (`α`). -/
structure WidgetRule (α : Type) where
  rule : Pattern
  toDOM : List Char → α

/-- Overwriting insertion into a string-keyed object, modelled as an
association list: `m[k] = v`. -/
def mapSet {α : Type} (m : List (List Char × α)) (k : List Char) (v : α) :
    List (List Char × α) :=
  match m with
  | [] => [(k, v)]
  | (k', v') :: rest => if k' = k then (k, v) :: rest else (k', v') :: mapSet rest k v

/-- Lookup in a string-keyed object modelled as an association list. -/
def lookupKey {α : Type} (m : List (List Char × α)) (k : List Char) : Option α :=
  match m with
  | [] => none
  | (k', v') :: rest => if k' = k then some v' else lookupKey rest k

/-- The synthetic id `` `widget${index}` ``. -/
def widgetKey (i : Nat) : List Char :=
  "widget".toList ++ (Nat.repr i).toList

/-- The process-wide mutable module state: the ordered rule list
`widgetRules` and the id-to-rule object `widgetRuleMap`. -/
structure Registry (α : Type) where
  widgetRules : List (WidgetRule α)
  widgetRuleMap : List (List Char × WidgetRule α)

/-- The state at module load: `widgetRules = []`, `widgetRuleMap = {}`. -/
def initRegistry (α : Type) : Registry α := ⟨[], []⟩

/-- The `forEach` of `setWidgetRules`: assigns `widgetRuleMap[`widget${index}`]
= rule` for each rule in order, starting at index `start`. -/
def insertRulesFrom {α : Type} (m : List (List Char × WidgetRule α)) (start : Nat) :
    List (WidgetRule α) → List (List Char × WidgetRule α)
  | [] => m
  | r :: rs => insertRulesFrom (mapSet m (widgetKey start) r) (start + 1) rs

/-- Translation of `setWidgetRules` from the source: replaces `widgetRules`
and writes the entry `widget<i> -> rules[i]` for every index of the new list
into the existing `widgetRuleMap` (the map is not cleared first). -/
def setWidgetRules {α : Type} (st : Registry α) (rules : List (WidgetRule α)) :
    Registry α :=
  { widgetRules := rules
    widgetRuleMap := insertRulesFrom st.widgetRuleMap 0 rules }

/-- Translation of `getWidgetRules` from the source. -/
def getWidgetRules {α : Type} (st : Registry α) : List (WidgetRule α) :=
  st.widgetRules

/-- Translation of `widgetToDOM` from the source.  Looking up an id that is
absent from `widgetRuleMap` throws in JavaScript (destructuring of
`undefined`), modelled as `none`; otherwise the result is the value of the
`toDOM` call.  Note the argument of `toDOM`: the matched substring of the
decoded text when the rule matches, and otherwise the original `text`
parameter, unchanged. -/
def widgetToDOM {α : Type} (ruleMap : List (List Char × WidgetRule α))
    (info text : List Char) : Option α :=
  match lookupKey ruleMap info with
  | none => none
  | some r =>
    match pmatchFirst r.rule (unwrapWidgetSyntax text) with
    | some m => some (r.toDOM m)
    | none => some (r.toDOM text)

/-- Document nodes produced by the segmentation engine: the schema factory
calls `schema.text(s)` and
`schema.nodes.widget.create({ info }, schema.text(payload))` are modelled by
the two constructors. -/
inductive PmNode : Type where
  | text : List Char → PmNode
  | widget : (info : List Char) → (payload : List Char) → PmNode
deriving DecidableEq, Repr

/-- A pending call of the segmentation engine: either a top-level
`createNodesWithWidget(text, schema, ruleIndex)` call, or an iteration of its
inner `while` loop (which carries the rule at `ruleIndex`, the remaining text
and the nodes accumulated so far). -/
inductive SegCall (α : Type) : Type where
  | top : List Char → Nat → SegCall α
  | loop : WidgetRule α → Nat → List Char → List PmNode → SegCall α

/-- Recursion kernel of `createNodesWithWidget`, fuel-indexed (`none` means
the computation did not finish within `fuel` steps — the source genuinely
diverges on a pattern matching a zero-length span, see the zero-length-match
theorems; on well-behaved rules the result stabilises, see `segRun_mono`).

The `SegCall.top` case is the direct translation of the source body: decode
the input, and if the rule at `ruleIndex` exists and matches, enter the match
loop with `nodes = []`; otherwise return `[]` for empty text, fall through to
the next rule (`mergeNodes` with `nodes = []`) when one remains, or emit the
whole text as one text node.

The `SegCall.loop` case is the `while ((index = text.search(rule)) !== -1)`
loop plus the trailing `if (text)` merge.  Each iteration: segment the text
before the match with the next rule index (`mergeNodes`), build a widget node
from the matched literal (`text.match(rule)![0]`) with the encoded payload,
and continue after the literal. -/
def segRun {α : Type} (rules : List (WidgetRule α)) :
    Nat → SegCall α → Option (List PmNode)
  | 0, _ => none
  | fuel + 1, SegCall.top text0 ruleIndex =>
    let text := unwrapWidgetSyntax text0
    match rules.get? ruleIndex with
    | some r =>
      if patTest r.rule text then
        segRun rules fuel (SegCall.loop r ruleIndex text [])
      else if text = [] then some []
      else if ruleIndex < rules.length - 1 then
        segRun rules fuel (SegCall.top text (ruleIndex + 1))
      else some [PmNode.text text]
    | none =>
      if text = [] then some []
      else if ruleIndex < rules.length - 1 then
        segRun rules fuel (SegCall.top text (ruleIndex + 1))
      else some [PmNode.text text]
  | fuel + 1, SegCall.loop r ruleIndex text nodes =>
    match patSearch r.rule text with
    | none =>
      if text = [] then some nodes
      else (segRun rules fuel (SegCall.top text (ruleIndex + 1))).map (nodes ++ ·)
    | some index =>
      let prev := text.take index
      let prevNodes :=
        if prev = [] then some nodes
        else (segRun rules fuel (SegCall.top prev (ruleIndex + 1))).map (nodes ++ ·)
      match prevNodes with
      | none => none
      | some nodes1 =>
        let text1 := text.drop index
        match pmatchFirst r.rule text1 with
        | none => none  -- unreachable: `text.match(rule)!`, search found a match
        | some literal =>
          let info := widgetKey ruleIndex
          segRun rules fuel (SegCall.loop r ruleIndex (text1.drop literal.length)
            (nodes1 ++ [PmNode.widget info (createWidgetContent info literal)]))

/-- `createNodesWithWidget(text, schema, ruleIndex)`, fuel-indexed. -/
def createNodesWithWidgetF {α : Type} (rules : List (WidgetRule α)) (fuel : Nat)
    (text : List Char) (ruleIndex : Nat) : Option (List PmNode) :=
  segRun rules fuel (SegCall.top text ruleIndex)

/-- The regex `/\$\S+/` of the reference scenario: a dollar sign followed by
a maximal non-empty run of non-whitespace characters. -/
def dollarPat : Pattern := fun l =>
  match l with
  | '$' :: rest =>
    match rest.takeWhile (fun c => !(isJsSpace c)) with
    | [] => none
    | run => some (run.length + 1)
  | _ => none

/-- The regex `/#\S+/` of the reference scenario. -/
def hashPat : Pattern := fun l =>
  match l with
  | '#' :: rest =>
    match rest.takeWhile (fun c => !(isJsSpace c)) with
    | [] => none
    | run => some (run.length + 1)
  | _ => none

/-- Modelled from the spec: a Markdown-parsed inline subtree, as produced by
the external ToastMark parser (an opaque collaborator of this module).  A
node is either a plain-text leaf carrying its literal, or a non-text node
with a type name and a child sequence (emphasis, the custom widget node
itself, and so on). -/
inductive MdNode : Type where
  | text : List Char → MdNode
  | container : List Char → List MdNode → MdNode

mutual

def mdDecEq : (a b : MdNode) → Decidable (a = b)
  | MdNode.text s, MdNode.text t =>
    match decEq s t with
    | isTrue h => isTrue (by rw [h])
    | isFalse h => isFalse (by intro he; cases he; exact h rfl)
  | MdNode.text _, MdNode.container _ _ => isFalse (by intro he; cases he)
  | MdNode.container _ _, MdNode.text _ => isFalse (by intro he; cases he)
  | MdNode.container ty cs, MdNode.container ty' cs' =>
    match decEq ty ty', mdDecEqList cs cs' with
    | isTrue h1, isTrue h2 => isTrue (by rw [h1, h2])
    | isFalse h1, _ => isFalse (by intro he; cases he; exact h1 rfl)
    | isTrue _, isFalse h2 => isFalse (by intro he; cases he; exact h2 rfl)

def mdDecEqList : (a b : List MdNode) → Decidable (a = b)
  | [], [] => isTrue rfl
  | [], _ :: _ => isFalse (by intro he; cases he)
  | _ :: _, [] => isFalse (by intro he; cases he)
  | a :: as, b :: bs =>
    match mdDecEq a b, mdDecEqList as bs with
    | isTrue h1, isTrue h2 => isTrue (by rw [h1, h2])
    | isFalse h1, _ => isFalse (by intro he; cases he; exact h1 rfl)
    | isTrue _, isFalse h2 => isFalse (by intro he; cases he; exact h2 rfl)

end

instance : DecidableEq MdNode := mdDecEq

/-- The `type` field of a node. -/
def mdType : MdNode → List Char
  | MdNode.text _ => "text".toList
  | MdNode.container ty _ => ty

/-- The `literal` field of a node.  On a non-text node the field is `null`
in the source; appending it to a string in JavaScript would yield the text
`"null"`, which is what the model returns (the extractor only reads the
field on text nodes). -/
def mdLiteral : MdNode → List Char
  | MdNode.text s => s
  | MdNode.container _ _ => "null".toList

mutual

/-- Modelled from the spec: the event stream of the external depth-first
walker of a parsed subtree (`walker()`/`next()`).  A container node yields an
entering event, the events of its children in order, and a non-entering
event; a text leaf yields a single entering event. -/
def dfsEvents : MdNode → List (MdNode × Bool)
  | MdNode.text s => [(MdNode.text s, true)]
  | MdNode.container ty cs =>
    (MdNode.container ty cs, true) :: dfsEventsList cs ++ [(MdNode.container ty cs, false)]

/-- Event streams of a list of sibling subtrees, concatenated in order. -/
def dfsEventsList : List MdNode → List (MdNode × Bool)
  | [] => []
  | c :: cs => dfsEvents c ++ dfsEventsList cs

end

mutual

/-- Number of nodes of a subtree. -/
def mdSize : MdNode → Nat
  | MdNode.text _ => 1
  | MdNode.container _ cs => 1 + mdSizeList cs

/-- Number of nodes of a forest. -/
def mdSizeList : List MdNode → Nat
  | [] => 0
  | c :: cs => mdSize c + mdSizeList cs

end

/-- Modelled from the spec: `walker.resumeAt(node, entering)` followed by the
stream of later events — the suffix of the full event stream starting at the
first occurrence of the given event. -/
def eventsFrom : List (MdNode × Bool) → (MdNode × Bool) → List (MdNode × Bool)
  | [], _ => []
  | e :: rest, target => if e = target then e :: rest else eventsFrom rest target

mutual

theorem mem_dfsEvents_size {n : MdNode} {b : Bool} :
    ∀ (m : MdNode), (n, b) ∈ dfsEvents m → mdSize n ≤ mdSize m
  | MdNode.text s => fun h => by
    simp only [dfsEvents, List.mem_singleton, Prod.mk.injEq] at h
    rw [h.1]
  | MdNode.container ty cs => fun h => by
    rw [dfsEvents] at h
    rcases List.mem_cons.mp h with he | hrest
    · cases he; exact Nat.le_refl _
    · rcases List.mem_append.mp hrest with hb | hx
      · calc mdSize n ≤ mdSizeList cs := mem_dfsEventsList_size cs hb
          _ ≤ mdSize (MdNode.container ty cs) := by simp only [mdSize]; omega
      · cases List.mem_singleton.mp hx; exact Nat.le_refl _

theorem mem_dfsEventsList_size {n : MdNode} {b : Bool} :
    ∀ (cs : List MdNode), (n, b) ∈ dfsEventsList cs → mdSize n ≤ mdSizeList cs
  | [] => fun h => by simp [dfsEventsList] at h
  | c :: cs => fun h => by
    simp only [dfsEventsList, List.mem_append] at h
    rcases h with h | h
    · calc mdSize n ≤ mdSize c := mem_dfsEvents_size c h
        _ ≤ mdSizeList (c :: cs) := by simp only [mdSizeList]; omega
    · calc mdSize n ≤ mdSizeList cs := mem_dfsEventsList_size cs h
        _ ≤ mdSizeList (c :: cs) := by simp only [mdSizeList]; omega

end

theorem eventsFrom_append_of_not_mem {l1 l2 : List (MdNode × Bool)}
    {target : MdNode × Bool} (h : target ∉ l1) :
    eventsFrom (l1 ++ l2) target = eventsFrom l2 target := by
  induction l1 with
  | nil => rfl
  | cons e rest ih =>
    have hne : e ≠ target := fun he => h (he ▸ List.mem_cons_self e rest)
    rw [List.cons_append, eventsFrom, if_neg hne]
    exact ih (fun hm => h (List.mem_cons_of_mem e hm))

/-- Repositioning the walker at the widget node's own non-entering event and
consuming that event exhausts the stream: the root's exit event is the last
event of its stream (a proper descendant has strictly fewer nodes than the
root, so no earlier event equals the root's exit event). -/
theorem eventsFrom_exit_tail (w : MdNode) :
    (eventsFrom (dfsEvents w) (w, false)).tail = [] := by
  cases w with
  | text s =>
    rw [dfsEvents, show [(MdNode.text s, true)] = (MdNode.text s, true) :: [] from rfl,
      eventsFrom, if_neg (by simp)]
    rfl
  | container ty cs =>
    rw [dfsEvents, List.cons_append, eventsFrom, if_neg (by simp),
      eventsFrom_append_of_not_mem]
    · rw [eventsFrom, if_pos rfl]
      rfl
    · intro hmem
      have := mem_dfsEventsList_size cs hmem
      simp only [mdSize] at this
      omega

/-- The `while ((event = walker.next()))` loop of `getWidgetContent`,
processing the remaining event stream.  On an entering event of a node that
is neither the widget node itself nor a text node, the source appends the
externally extracted inline text (`getInlineMarkdownText`, abstracted as
`getText`), repositions the walker at the widget node's non-entering event
and consumes one more event; on an entering text-node event it appends the
node's literal; other events are skipped. -/
def gwcGo (getText : MdNode → List Char) (widgetNode : MdNode) :
    List (MdNode × Bool) → List Char
  | [] => []
  | (node, entering) :: rest =>
    if entering then
      if node ≠ widgetNode ∧ mdType node ≠ "text".toList then
        getText node ++
          gwcGo getText widgetNode
            ((eventsFrom (dfsEvents widgetNode) (widgetNode, false)).tail)
      else if mdType node = "text".toList then
        mdLiteral node ++ gwcGo getText widgetNode rest
      else gwcGo getText widgetNode rest
    else gwcGo getText widgetNode rest
termination_by evts => evts.length
decreasing_by all_goals simp [eventsFrom_exit_tail]

/-- Translation of `getWidgetContent` from the source, over the walker model:
run the event loop on the widget node's full event stream. -/
def getWidgetContent (getText : MdNode → List Char) (widgetNode : MdNode) :
    List Char :=
  gwcGo getText widgetNode (dfsEvents widgetNode)

example : unwrapWidgetSyntax "abc".toList = "abc".toList := by decide
example : unwrapWidgetSyntax "$$widget1 x$$y".toList = "xy".toList := by decide
example :
    createWidgetContent "widget0".toList "a$$b".toList =
      "$$widget0 a$\u200B$b$$".toList := by decide

/-! ### Basic facts about the widget-open marker and `unwrapWidgetSyntax` -/

/-- A match of the widget-open marker consumes at least the ten characters
`$$widget<digit><space>` and at most the whole remaining text. -/
theorem reWidgetMarker_bounds {l : List Char} {n : Nat}
    (h : reWidgetMarker l = some n) : 10 ≤ n ∧ n ≤ l.length := by
  unfold reWidgetMarker at h
  split at h
  · split at h
    · exact absurd h (by simp)
    · exact absurd h (by simp)
    · rename_i l0 rest0 x1 x2 c0 tail0 heq0 hne0
      split at h
      · have hn := Option.some.inj h
        have htw1 : 1 ≤ (rest0.takeWhile Char.isDigit).length := by
          cases hx : rest0.takeWhile Char.isDigit with
          | nil => exact absurd (hne0 hx) (by simp)
          | cons d ds' => simp
        have hlen : (rest0.takeWhile Char.isDigit).length +
            (rest0.dropWhile Char.isDigit).length = rest0.length := by
          rw [← List.length_append, List.takeWhile_append_dropWhile]
        have hdw1 : 1 ≤ (rest0.dropWhile Char.isDigit).length := by rw [heq0]; simp
        simp only [List.length_cons]
        omega
      · exact absurd h (by simp)
  · exact absurd h (by simp)

/-- `search` finds a position where the pattern matches. -/
theorem patSearch_some {p : Pattern} :
    ∀ {t : List Char} {i : Nat}, patSearch p t = some i → (p (t.drop i)).isSome
  | [], i, h => by
    rw [patSearch] at h
    split at h
    · rename_i hs
      cases h
      exact hs
    · exact absurd h (by simp)
  | c :: cs, i, h => by
    rw [patSearch] at h
    split at h
    · rename_i hs
      cases h
      exact hs
    · rcases Option.map_eq_some'.mp h with ⟨j, hj, hji⟩
      subst hji
      show (p (List.drop j cs)).isSome
      exact patSearch_some hj

/-- Removing the first match of a pattern that matches at the head drops
exactly the matched characters. -/
theorem replaceFirst_head {p : Pattern} {l : List Char} {n : Nat}
    (h : p l = some n) : replaceFirst p l = l.drop n := by
  cases l with
  | nil => rw [replaceFirst, h]; simp
  | cons c cs => rw [replaceFirst, h]

/-- Removing the first `$$` occurrence never lengthens a string. -/
theorem removeFirstDollars_length (l : List Char) :
    (removeFirstDollars l).length ≤ l.length := by
  induction l using removeFirstDollars.induct with
  | case1 => simp [removeFirstDollars]
  | case2 cs =>
    simp [removeFirstDollars]
    omega
  | case3 c cs hne ih =>
    rw [removeFirstDollars.eq_3 c cs hne]
    simpa using ih

/-- The argument of the recursive call of `unwrapWidgetSyntax` is strictly
shorter than the current text: the matched open marker (at least ten
characters) is removed from the remainder. -/
theorem unwrap_decrease {t : List Char} {i : Nat}
    (h : patSearch reWidgetMarker t = some i) :
    (removeFirstDollars (replaceFirst reWidgetMarker (t.drop i))).length < t.length := by
  rcases Option.isSome_iff_exists.mp (patSearch_some h) with ⟨n, hn⟩
  have hb := reWidgetMarker_bounds hn
  rw [replaceFirst_head hn]
  have h2 := removeFirstDollars_length ((t.drop i).drop n)
  have h4 : ((t.drop i).drop n).length = t.length - i - n := by
    rw [List.length_drop, List.length_drop]
  have h5 : n ≤ t.length - i := by
    have := hb.2
    rwa [List.length_drop] at this
  have h10 : 10 ≤ n := hb.1
  omega

/-- The fuel of `unwrapF` is irrelevant once it is at least the length of the
text (each recursive call consumes one unit of fuel and at least ten
characters of text). -/
theorem unwrapF_congr :
    ∀ (fuel1 fuel2 : Nat) (t : List Char), t.length ≤ fuel1 → t.length ≤ fuel2 →
      unwrapF fuel1 t = unwrapF fuel2 t
  | 0, fuel2, t, h1, h2 => by
    have ht : t = [] := List.eq_nil_of_length_eq_zero (Nat.le_zero.mp h1)
    subst ht
    cases fuel2 with
    | zero => rfl
    | succ f2 =>
      rw [unwrapF, unwrapF]
      rfl
  | fuel1 + 1, 0, t, h1, h2 => by
    have ht : t = [] := List.eq_nil_of_length_eq_zero (Nat.le_zero.mp h2)
    subst ht
    rw [unwrapF, unwrapF]
    rfl
  | fuel1 + 1, fuel2 + 1, t, h1, h2 => by
    rw [unwrapF, unwrapF]
    cases hsearch : patSearch reWidgetMarker t with
    | none => simp only [hsearch]
    | some i =>
      have hdec := unwrap_decrease hsearch
      simp only [hsearch]
      rw [unwrapF_congr fuel1 fuel2
        (removeFirstDollars (replaceFirst reWidgetMarker (t.drop i)))
        (by omega) (by omega)]

/-- Unfolding equation of `unwrapWidgetSyntax`, mirroring the source text of
the function: find the first widget-open marker; if absent return the text,
otherwise keep the text before the match and recurse on the remainder with
the matched prefix and the first bare `$$` removed. -/
theorem unwrap_eq (t : List Char) :
    unwrapWidgetSyntax t =
      match patSearch reWidgetMarker t with
      | none => t
      | some index =>
        t.take index ++
          unwrapWidgetSyntax (removeFirstDollars (replaceFirst reWidgetMarker (t.drop index))) := by
  unfold unwrapWidgetSyntax
  cases hl : t.length with
  | zero =>
    have ht : t = [] := List.eq_nil_of_length_eq_zero hl
    subst ht
    rfl
  | succ k =>
    rw [unwrapF]
    cases hsearch : patSearch reWidgetMarker t with
    | none => simp only [hsearch]
    | some i =>
      have hdec : (removeFirstDollars (replaceFirst reWidgetMarker (t.drop i))).length
          < t.length := unwrap_decrease hsearch
      simp only [hsearch]
      rw [unwrapF_congr k
        (removeFirstDollars (replaceFirst reWidgetMarker (t.drop i))).length
        (removeFirstDollars (replaceFirst reWidgetMarker (t.drop i)))
        (by omega) (by omega)]

/-- Reading `unwrap_eq` in the no-match case. -/
theorem unwrap_eq_none {t : List Char} (h : patSearch reWidgetMarker t = none) :
    unwrapWidgetSyntax t = t := by
  rw [unwrap_eq, h]

/-- Reading `unwrap_eq` in the match case. -/
theorem unwrap_eq_some {t : List Char} {i : Nat}
    (h : patSearch reWidgetMarker t = some i) :
    unwrapWidgetSyntax t =
      t.take i ++
        unwrapWidgetSyntax (removeFirstDollars (replaceFirst reWidgetMarker (t.drop i))) := by
  rw [unwrap_eq, h]

/-! ### Claims C8, C10, C1, C6: the delimiter codec -/

/-- C8: `unwrapWidgetSyntax` terminates on every input string: whenever the
widget-open marker is found, the string passed to the recursive call (the
remainder with the matched open-marker prefix and one bare delimiter removed)
is strictly shorter than the current input, so the recursion depth is bounded
by the input length (any fuel of at least the input length computes the
function). -/
theorem unwrap_terminates (t : List Char) :
    (∀ i, patSearch reWidgetMarker t = some i →
      (removeFirstDollars (replaceFirst reWidgetMarker (t.drop i))).length < t.length) ∧
    (∀ fuel, t.length ≤ fuel → unwrapF fuel t = unwrapWidgetSyntax t) := by
  constructor
  · intro i hi
    exact unwrap_decrease hi
  · intro fuel hfuel
    exact unwrapF_congr fuel t.length t hfuel (Nat.le_refl _)

/-- Witness for `unwrap_terminates` at a concrete input with a marker. -/
theorem unwrap_terminates_witness :
    (removeFirstDollars (replaceFirst reWidgetMarker
      (("$$widget1 x$$y".toList).drop 0))).length < ("$$widget1 x$$y".toList).length :=
  (unwrap_terminates "$$widget1 x$$y".toList).1 0 (by decide)

/-- Sublist helper: removing the first `$$` occurrence yields a sublist. -/
theorem removeFirstDollars_sublist (l : List Char) :
    (removeFirstDollars l).Sublist l := by
  induction l using removeFirstDollars.induct with
  | case1 => exact List.Sublist.refl _
  | case2 cs =>
    rw [removeFirstDollars]
    exact (List.sublist_cons_self '$' cs).trans (List.sublist_cons_self '$' ('$' :: cs))
  | case3 c cs hne ih =>
    rw [removeFirstDollars.eq_3 c cs hne]
    exact List.Sublist.cons₂ c ih

/-- Sublist helper: removing the first match of a pattern yields a sublist. -/
theorem replaceFirst_sublist (p : Pattern) : ∀ (l : List Char),
    (replaceFirst p l).Sublist l
  | [] => by
    rw [replaceFirst]
    split <;> exact List.Sublist.refl _
  | c :: cs => by
    rw [replaceFirst]
    split
    · exact List.drop_sublist _ _
    · exact List.Sublist.cons₂ c (replaceFirst_sublist p cs)

theorem unwrap_sublist_aux :
    ∀ (n : Nat) (t : List Char), t.length ≤ n → (unwrapWidgetSyntax t).Sublist t
  | 0, t, hn => by
    have ht : t = [] := List.eq_nil_of_length_eq_zero (Nat.le_zero.mp hn)
    subst ht
    exact List.Sublist.refl _
  | n + 1, t, hn => by
    rw [unwrap_eq]
    cases hsearch : patSearch reWidgetMarker t with
    | none => exact List.Sublist.refl t
    | some i =>
      have hdec := unwrap_decrease hsearch
      have harg : (removeFirstDollars (replaceFirst reWidgetMarker (t.drop i))).Sublist
          (t.drop i) :=
        (removeFirstDollars_sublist _).trans (replaceFirst_sublist _ _)
      have ih := unwrap_sublist_aux n
        (removeFirstDollars (replaceFirst reWidgetMarker (t.drop i))) (by omega)
      have hall : (t.take i ++
          unwrapWidgetSyntax (removeFirstDollars (replaceFirst reWidgetMarker (t.drop i)))).Sublist
          (t.take i ++ t.drop i) :=
        List.Sublist.append (List.Sublist.refl _) (ih.trans harg)
      rwa [List.take_append_drop] at hall

/-- C10: decoding only deletes characters: `unwrapWidgetSyntax text` is a
subsequence of `text` (per pass, the matched open-marker prefix and one bare
`$$` occurrence are removed, nothing is inserted or reordered); in particular
the output is never longer than the input. -/
theorem unwrap_is_subsequence (t : List Char) :
    (unwrapWidgetSyntax t).Sublist t ∧ (unwrapWidgetSyntax t).length ≤ t.length :=
  ⟨unwrap_sublist_aux t.length t (Nat.le_refl _),
    (unwrap_sublist_aux t.length t (Nat.le_refl _)).length_le⟩

/-- C1 counterexample: one pass of `unwrapWidgetSyntax` is not idempotent in
general.  For the input `"$$widget$$widget1 1 "` the text kept before the
match (`"$$widget"`) and the decoded remainder (`"1 "`) concatenate to
`"$$widget1 "`, a fresh widget-open marker, so a second pass strips it. -/
theorem unwrap_not_idempotent_cex :
    unwrapWidgetSyntax (unwrapWidgetSyntax "$$widget$$widget1 1 ".toList) ≠
        unwrapWidgetSyntax "$$widget$$widget1 1 ".toList ∧
      unwrapWidgetSyntax "$$widget$$widget1 1 ".toList = "$$widget1 ".toList ∧
      patSearch reWidgetMarker (unwrapWidgetSyntax "$$widget$$widget1 1 ".toList) =
        some 0 := by
  refine ⟨by decide, by decide, by decide⟩

/-- C1 (amended): `unwrapWidgetSyntax` is idempotent on every input whose
single-pass result is free of the widget-open marker (on marker-free text the
function is the identity); a single pass does not always reach that state,
see `unwrap_not_idempotent_cex`. -/
theorem unwrap_idempotent_of_marker_free (x : List Char)
    (h : patSearch reWidgetMarker (unwrapWidgetSyntax x) = none) :
    unwrapWidgetSyntax (unwrapWidgetSyntax x) = unwrapWidgetSyntax x :=
  unwrap_eq_none h

/-- Witness for `unwrap_idempotent_of_marker_free` at a concrete input. -/
theorem unwrap_idempotent_witness :
    unwrapWidgetSyntax (unwrapWidgetSyntax "a$$widget1 b$$c".toList) =
      unwrapWidgetSyntax "a$$widget1 b$$c".toList :=
  unwrap_idempotent_of_marker_free "a$$widget1 b$$c".toList (by decide)

/-- C6: `createWidgetContent("widget0", "a$$b")` inserts a zero-width space
between the two characters of the escaped delimiter pair and wraps the
result, and `unwrapWidgetSyntax` of that result strips the outer open marker
and the closing delimiter while preserving the zero-width space. -/
theorem createWidgetContent_scenario :
    createWidgetContent "widget0".toList "a$$b".toList =
        "$$widget0 a$\u200B$b$$".toList ∧
      unwrapWidgetSyntax "$$widget0 a$\u200B$b$$".toList = "a$\u200B$b".toList := by
  refine ⟨by decide, by decide⟩

/-! ### Claim C5: round-trip of the delimiter codec -/

/-- The content string contains the raw two-character delimiter `$$`
somewhere (hypothesis predicate of the round-trip property). -/
def hasDD : List Char → Bool
  | [] => false
  | [_] => false
  | a :: b :: t => (a == '$' && b == '$') || hasDD (b :: t)

theorem hasDD_tail {a : Char} {cs : List Char} (h : hasDD (a :: cs) = false) :
    hasDD cs = false := by
  cases cs with
  | nil => rfl
  | cons b t =>
    rw [hasDD] at h
    exact (Bool.or_eq_false_iff.mp h).2

/-- A widget-open marker starts with `$$`, so a marker match implies the
delimiter occurs. -/
theorem hasDD_of_marker {l : List Char} {n : Nat} (h : reWidgetMarker l = some n) :
    hasDD l = true := by
  unfold reWidgetMarker at h
  split at h
  · rw [hasDD]
    simp
  · exact absurd h (by simp)

/-- A string without the delimiter contains no widget-open marker. -/
theorem marker_none_of_hasDD_false : ∀ {t : List Char}, hasDD t = false →
    patSearch reWidgetMarker t = none := by
  intro t
  induction t with
  | nil => intro h; rfl
  | cons c cs ih =>
    intro h
    have hm : reWidgetMarker (c :: cs) = none := by
      cases hmm : reWidgetMarker (c :: cs) with
      | none => rfl
      | some n =>
        have hdd := hasDD_of_marker hmm
        rw [hdd] at h
        exact absurd h (by simp)
    rw [patSearch, hm]
    simp only [Option.isSome_none, Bool.false_eq_true, if_false]
    rw [ih (hasDD_tail h)]
    rfl

/-- Escaping is the identity on delimiter-free content. -/
theorem escapeDollars_id : ∀ {c : List Char}, hasDD c = false → escapeDollars c = c := by
  intro c
  induction c using escapeDollars.induct with
  | case1 => intro h; rfl
  | case2 cs =>
    intro h
    rw [hasDD] at h
    simp at h
  | case3 a cs hne ih =>
    intro h
    rw [escapeDollars.eq_3 a cs hne, ih (hasDD_tail h)]

/-- Removing the first `$$` from `c ++ "$$"` recovers `c` when `c` itself is
delimiter-free (also when `c` ends in a lone `$`, in which case the removed
pair straddles the boundary). -/
theorem removeFirstDollars_append_dd : ∀ {c : List Char}, hasDD c = false →
    removeFirstDollars (c ++ ['$', '$']) = c := by
  intro c
  induction c using hasDD.induct with
  | case1 => intro h; rfl
  | case2 a =>
    intro h
    by_cases ha : a = '$'
    · subst ha; rfl
    · rw [show ([a] ++ ['$', '$']) = a :: '$' :: '$' :: [] from rfl,
        removeFirstDollars.eq_3 a ('$' :: '$' :: []) (fun _ h1 _ => ha h1)]
      rfl
  | case3 a b t ih =>
    intro h
    have h2 : hasDD (b :: t) = false := hasDD_tail h
    have h1 : (a == '$' && b == '$') = false := by
      rw [hasDD] at h
      exact (Bool.or_eq_false_iff.mp h).1
    have hne : ∀ (cs1 : List Char), a = '$' → (b :: t) ++ ['$', '$'] = '$' :: cs1 → False := by
      intro cs1 hA hB
      rw [List.cons_append] at hB
      injection hB with hb _
      rw [hA, hb] at h1
      simp at h1
    rw [show ((a :: b :: t) ++ ['$', '$']) = a :: ((b :: t) ++ ['$', '$']) from rfl,
      removeFirstDollars.eq_3 a ((b :: t) ++ ['$', '$']) hne, ih h2]

/-- `takeWhile`/`dropWhile` on a run of satisfying characters followed by a
failing one. -/
theorem takeWhile_run {p : Char → Bool} :
    ∀ {ds : List Char}, (∀ d ∈ ds, p d) → ∀ {x : Char}, p x = false → ∀ (t : List Char),
      (ds ++ x :: t).takeWhile p = ds ∧ (ds ++ x :: t).dropWhile p = x :: t := by
  intro ds
  induction ds with
  | nil =>
    intro _ x hx t
    constructor
    · rw [List.nil_append, List.takeWhile_cons, if_neg (by rw [hx]; simp)]
    · rw [List.nil_append, List.dropWhile_cons, if_neg (by rw [hx]; simp)]
  | cons d ds' ih =>
    intro hall x hx t
    have hd : p d := hall d (List.mem_cons_self d ds')
    have hrest := ih (fun e he => hall e (List.mem_cons_of_mem d he)) hx t
    constructor
    · rw [List.cons_append, List.takeWhile_cons, if_pos hd, hrest.1]
    · rw [List.cons_append, List.dropWhile_cons, if_pos hd, hrest.2]

/-- The widget-open marker matches the head of an encoded widget string,
consuming `$$`, the id, and the separating space. -/
theorem reWidgetMarker_encode {ds : List Char} (hds : ds ≠ [])
    (hdig : ∀ d ∈ ds, d.isDigit) (tail : List Char) :
    reWidgetMarker ("$$widget".toList ++ ds ++ ' ' :: tail) = some (9 + ds.length) := by
  have hsp : Char.isDigit ' ' = false := by decide
  have htk := (takeWhile_run hdig hsp tail).1
  have hdp := (takeWhile_run hdig hsp tail).2
  show reWidgetMarker
    ('$' :: '$' :: 'w' :: 'i' :: 'd' :: 'g' :: 'e' :: 't' :: (ds ++ ' ' :: tail)) = _
  simp only [reWidgetMarker]
  rw [htk, hdp]
  cases ds with
  | nil => exact absurd rfl hds
  | cons d ds' => simp [isJsSpace]

/-- `search` returns index 0 when the pattern matches at the head. -/
theorem patSearch_head {p : Pattern} {l : List Char} (h : (p l).isSome) :
    patSearch p l = some 0 := by
  cases l with
  | nil => rw [patSearch, if_pos h]
  | cons c cs => rw [patSearch, if_pos h]

/-- C5: round-trip of the delimiter codec.  For every id of the form
`widget<digits>` and every content string without the raw delimiter `$$`,
decoding the encoded widget string recovers the content exactly: encoding
then decoding alters no non-delimiter characters. -/
theorem createWidgetContent_roundtrip (ds c : List Char) (hds : ds ≠ [])
    (hdig : ∀ d ∈ ds, d.isDigit) (hc : hasDD c = false) :
    unwrapWidgetSyntax (createWidgetContent ("widget".toList ++ ds) c) = c := by
  have hesc : escapeDollars c = c := escapeDollars_id hc
  have hshape : createWidgetContent ("widget".toList ++ ds) c =
      "$$widget".toList ++ ds ++ ' ' :: (c ++ ['$', '$']) := by
    rw [createWidgetContent, hesc]
    simp
  rw [hshape]
  have hm := reWidgetMarker_encode hds hdig (c ++ ['$', '$'])
  have hsearch : patSearch reWidgetMarker
      ("$$widget".toList ++ ds ++ ' ' :: (c ++ ['$', '$'])) = some 0 :=
    patSearch_head (by rw [hm]; rfl)
  rw [unwrap_eq_some hsearch, List.drop_zero, List.take_zero, List.nil_append,
    replaceFirst_head hm]
  have hsplit : "$$widget".toList ++ ds ++ ' ' :: (c ++ ['$', '$']) =
      ("$$widget".toList ++ ds ++ [' ']) ++ (c ++ ['$', '$']) := by simp
  have hlen : ("$$widget".toList ++ ds ++ [' ']).length = 9 + ds.length := by
    simp [List.length_append]
    omega
  rw [hsplit, ← hlen, List.drop_left, removeFirstDollars_append_dd hc]
  exact unwrap_eq_none (marker_none_of_hasDD_false hc)

/-- Witness for `createWidgetContent_roundtrip` at a concrete id and content. -/
theorem createWidgetContent_roundtrip_witness :
    unwrapWidgetSyntax (createWidgetContent ("widget".toList ++ ['7']) "a$b ".toList) =
      "a$b ".toList :=
  createWidgetContent_roundtrip ['7'] "a$b ".toList (by decide) (by decide) (by decide)

/-! ### Claims C2 and C3: the widget rule registry -/

/-- C2 counterexample: with the rule `/#\S+/` registered for `widget0` and
the encoded text `"$$widget0 abc$$"`, the decoded text `"abc"` has no match,
and `toDOM` (taken to be the identity) receives the original, still encoded,
text — not the decoded text. -/
theorem widgetToDOM_nomatch_cex :
    pmatchFirst hashPat (unwrapWidgetSyntax "$$widget0 abc$$".toList) = none ∧
      widgetToDOM [("widget0".toList, (⟨hashPat, id⟩ : WidgetRule (List Char)))]
          "widget0".toList "$$widget0 abc$$".toList = some "$$widget0 abc$$".toList ∧
      "$$widget0 abc$$".toList ≠ unwrapWidgetSyntax "$$widget0 abc$$".toList := by
  refine ⟨by decide, by decide, by decide⟩

/-- C2 (amended): when the registered rule's pattern has no match anywhere in
the decoded text, `widgetToDOM` invokes the rule's `toDOM` with the original
`text` argument, unchanged (still encoded) — not with the decoded text. -/
theorem widgetToDOM_nomatch {α : Type} {ruleMap : List (List Char × WidgetRule α)}
    {info text : List Char} {r : WidgetRule α}
    (hr : lookupKey ruleMap info = some r)
    (hnm : pmatchFirst r.rule (unwrapWidgetSyntax text) = none) :
    widgetToDOM ruleMap info text = some (r.toDOM text) := by
  simp [widgetToDOM, hr, hnm]

/-- Witness for `widgetToDOM_nomatch` at a concrete registry and text. -/
theorem widgetToDOM_nomatch_witness :
    widgetToDOM [("widget0".toList, (⟨hashPat, id⟩ : WidgetRule (List Char)))]
        "widget0".toList "$$widget0 abc$$".toList = some "$$widget0 abc$$".toList :=
  widgetToDOM_nomatch (by rfl) (by decide)

def staleRuleA : WidgetRule Nat := ⟨hashPat, fun _ => 10⟩

def staleRuleB : WidgetRule Nat := ⟨hashPat, fun _ => 11⟩

def staleRuleC : WidgetRule Nat := ⟨dollarPat, fun _ => 12⟩

/-- C3 counterexample: after `setWidgetRules([A, B])` followed by
`setWidgetRules([C])` (a strictly shorter list), the id `widget1` is still
present in the map, and `widgetToDOM("widget1", "x")` does not fail — it
dispatches to the stale rule `B` (whose `toDOM` returns `11`). -/
theorem setWidgetRules_stale_cex :
    (lookupKey (setWidgetRules (setWidgetRules (initRegistry Nat)
          [staleRuleA, staleRuleB]) [staleRuleC]).widgetRuleMap
        "widget1".toList).isSome = true ∧
      widgetToDOM (setWidgetRules (setWidgetRules (initRegistry Nat)
          [staleRuleA, staleRuleB]) [staleRuleC]).widgetRuleMap
        "widget1".toList ['x'] = some 11 := by
  refine ⟨by decide, by decide⟩

/-- C3 (amended): `setWidgetRules` overwrites only the indices of the new
list and never clears the map, so after `setWidgetRules([a, b])` followed by
`setWidgetRules([c])` the id `widget1` remains bound to the stale rule `b`,
for all rules `a`, `b`, `c`; consequently `widgetToDOM("widget1", text)`
succeeds (dispatching to `b`) for every text instead of failing. -/
theorem setWidgetRules_stale {α : Type} (a b c : WidgetRule α) (t : List Char) :
    lookupKey (setWidgetRules (setWidgetRules (initRegistry α) [a, b])
        [c]).widgetRuleMap (widgetKey 1) = some b ∧
      ∃ res, widgetToDOM (setWidgetRules (setWidgetRules (initRegistry α) [a, b])
        [c]).widgetRuleMap (widgetKey 1) t = some res := by
  have hlk : lookupKey (setWidgetRules (setWidgetRules (initRegistry α) [a, b])
      [c]).widgetRuleMap (widgetKey 1) = some b := rfl
  refine ⟨hlk, ?_⟩
  cases hm : pmatchFirst b.rule (unwrapWidgetSyntax t) with
  | none => exact ⟨b.toDOM t, by simp [widgetToDOM, hlk, hm]⟩
  | some m => exact ⟨b.toDOM m, by simp [widgetToDOM, hlk, hm]⟩

/-! ### Claims C4 and C7: the segmentation engine -/

/-- One-step unfolding of `segRun` on a top-level call. -/
theorem segRun_top_step {α : Type} (rules : List (WidgetRule α)) (fuel : Nat)
    (text0 : List Char) (ruleIndex : Nat) :
    segRun rules (fuel + 1) (SegCall.top text0 ruleIndex) =
      match rules.get? ruleIndex with
      | some r =>
        if patTest r.rule (unwrapWidgetSyntax text0) then
          segRun rules fuel (SegCall.loop r ruleIndex (unwrapWidgetSyntax text0) [])
        else if unwrapWidgetSyntax text0 = [] then some []
        else if ruleIndex < rules.length - 1 then
          segRun rules fuel (SegCall.top (unwrapWidgetSyntax text0) (ruleIndex + 1))
        else some [PmNode.text (unwrapWidgetSyntax text0)]
      | none =>
        if unwrapWidgetSyntax text0 = [] then some []
        else if ruleIndex < rules.length - 1 then
          segRun rules fuel (SegCall.top (unwrapWidgetSyntax text0) (ruleIndex + 1))
        else some [PmNode.text (unwrapWidgetSyntax text0)] := rfl

/-- One-step unfolding of `segRun` on a loop iteration. -/
theorem segRun_loop_step {α : Type} (rules : List (WidgetRule α)) (r : WidgetRule α)
    (ruleIndex : Nat) (fuel : Nat) (text : List Char) (nodes : List PmNode) :
    segRun rules (fuel + 1) (SegCall.loop r ruleIndex text nodes) =
      match patSearch r.rule text with
      | none =>
        if text = [] then some nodes
        else (segRun rules fuel (SegCall.top text (ruleIndex + 1))).map (nodes ++ ·)
      | some index =>
        match (if text.take index = [] then some nodes
               else (segRun rules fuel
                 (SegCall.top (text.take index) (ruleIndex + 1))).map (nodes ++ ·)) with
        | none => none
        | some nodes1 =>
          match pmatchFirst r.rule (text.drop index) with
          | none => none
          | some literal =>
            segRun rules fuel (SegCall.loop r ruleIndex
              ((text.drop index).drop literal.length)
              (nodes1 ++ [PmNode.widget (widgetKey ruleIndex)
                (createWidgetContent (widgetKey ruleIndex) literal)])) := rfl

/-- Fuel monotonicity of the segmentation engine: a result obtained with some
fuel is definitive — more fuel gives the same result. -/
theorem segRun_mono {α : Type} {rules : List (WidgetRule α)} :
    ∀ (fuel : Nat) (call : SegCall α) (res : List PmNode),
      segRun rules fuel call = some res → segRun rules (fuel + 1) call = some res
  | 0, call, res, h => absurd h (by simp [segRun])
  | fuel + 1, SegCall.top text0 ruleIndex, res, h => by
    rw [segRun_top_step] at h
    rw [segRun_top_step]
    cases hg : rules.get? ruleIndex with
    | none =>
      simp only [hg] at h ⊢
      by_cases h1 : unwrapWidgetSyntax text0 = []
      · simp only [if_pos h1] at h ⊢
        exact h
      · simp only [if_neg h1] at h ⊢
        by_cases h2 : ruleIndex < rules.length - 1
        · simp only [if_pos h2] at h ⊢
          exact segRun_mono fuel _ res h
        · simp only [if_neg h2] at h ⊢
          exact h
    | some r =>
      simp only [hg] at h ⊢
      by_cases ht : patTest r.rule (unwrapWidgetSyntax text0)
      · simp only [if_pos ht] at h ⊢
        exact segRun_mono fuel _ res h
      · simp only [if_neg ht] at h ⊢
        by_cases h1 : unwrapWidgetSyntax text0 = []
        · simp only [if_pos h1] at h ⊢
          exact h
        · simp only [if_neg h1] at h ⊢
          by_cases h2 : ruleIndex < rules.length - 1
          · simp only [if_pos h2] at h ⊢
            exact segRun_mono fuel _ res h
          · simp only [if_neg h2] at h ⊢
            exact h
  | fuel + 1, SegCall.loop r ruleIndex text nodes, res, h => by
    rw [segRun_loop_step] at h
    rw [segRun_loop_step]
    cases hs : patSearch r.rule text with
    | none =>
      simp only [hs] at h ⊢
      by_cases h1 : text = []
      · simp only [if_pos h1] at h ⊢
        exact h
      · simp only [if_neg h1] at h ⊢
        rcases Option.map_eq_some'.mp h with ⟨ns, hns, hres⟩
        rw [segRun_mono fuel _ ns hns]
        rw [← hres]
        rfl
    | some index =>
      simp only [hs] at h ⊢
      by_cases hp : text.take index = []
      · simp only [if_pos hp] at h ⊢
        cases hpm : pmatchFirst r.rule (text.drop index) with
        | none =>
          simp only [hpm] at h ⊢
          exact h
        | some literal =>
          simp only [hpm] at h ⊢
          exact segRun_mono fuel _ res h
      · simp only [if_neg hp] at h ⊢
        cases hprev : segRun rules fuel (SegCall.top (text.take index) (ruleIndex + 1)) with
        | none =>
          rw [hprev] at h
          simp only [Option.map_none'] at h
          exact absurd h (by simp)
        | some ns =>
          rw [hprev] at h
          rw [segRun_mono fuel _ ns hprev]
          simp only [Option.map_some'] at h ⊢
          cases hpm : pmatchFirst r.rule (text.drop index) with
          | none =>
            simp only [hpm] at h ⊢
            exact h
          | some literal =>
            simp only [hpm] at h ⊢
            exact segRun_mono fuel _ res h

/-- Fuel monotonicity, `≤` form. -/
theorem segRun_mono_le {α : Type} {rules : List (WidgetRule α)} {fuel fuel' : Nat}
    {call : SegCall α} {res : List PmNode} (hle : fuel ≤ fuel')
    (h : segRun rules fuel call = some res) : segRun rules fuel' call = some res := by
  induction hle with
  | refl => exact h
  | step h' ih => exact segRun_mono _ _ _ ih

/-- The two rules of the reference scenario, `[{rule:/\$\S+/}, {rule:/#\S+/}]`. -/
def segScenarioRules : List (WidgetRule Unit) :=
  [⟨dollarPat, fun _ => ()⟩, ⟨hashPat, fun _ => ()⟩]

/-- C4: on the text `"$test plain text #test"` with the two reference rules,
the segmentation engine returns exactly three nodes, in order: a widget node
`widget0` carrying `createWidgetContent("widget0", "$test")`, the plain text
node `" plain text "`, and a widget node `widget1` carrying
`createWidgetContent("widget1", "#test")` (any fuel of at least 10 computes
the result). -/
theorem createNodesWithWidget_scenario :
    ∀ fuel, 10 ≤ fuel →
      createNodesWithWidgetF segScenarioRules fuel "$test plain text #test".toList 0 =
        some [PmNode.widget "widget0".toList
                (createWidgetContent "widget0".toList "$test".toList),
              PmNode.text " plain text ".toList,
              PmNode.widget "widget1".toList
                (createWidgetContent "widget1".toList "#test".toList)] := by
  intro fuel hfuel
  show segRun segScenarioRules fuel _ = _
  exact segRun_mono_le hfuel (by decide)

/-- Witness for `createNodesWithWidget_scenario` at fuel 10. -/
theorem createNodesWithWidget_scenario_witness :
    createNodesWithWidgetF segScenarioRules 10 "$test plain text #test".toList 0 =
      some [PmNode.widget "widget0".toList
              (createWidgetContent "widget0".toList "$test".toList),
            PmNode.text " plain text ".toList,
            PmNode.widget "widget1".toList
              (createWidgetContent "widget1".toList "#test".toList)] :=
  createNodesWithWidget_scenario 10 (by decide)

/-- A rule whose pattern matches a zero-length span at every position. -/
def zeroRule : WidgetRule Unit := ⟨fun _ => some 0, fun _ => ()⟩

theorem zeroRule_loop_diverges :
    ∀ (fuel : Nat) (nodes : List PmNode),
      segRun [zeroRule] fuel (SegCall.loop zeroRule 0 ['a'] nodes) = none
  | 0, nodes => rfl
  | fuel + 1, nodes => by
    show segRun [zeroRule] fuel (SegCall.loop zeroRule 0 ['a']
      (nodes ++ [PmNode.widget (widgetKey 0) (createWidgetContent (widgetKey 0) [])])) =
      none
    exact zeroRule_loop_diverges fuel _

/-- The segmentation run on the registry `[zeroRule]` and the concrete input
`"a"` never completes, whatever the fuel — the model's rendering of an
infinite `while` loop in the source. -/
def segDivergesOnZeroMatch : Prop :=
  ∀ fuel, createNodesWithWidgetF [zeroRule] fuel ['a'] 0 = none

/-- C7 counterexample: with a registered rule whose pattern matches a
zero-length span, the inner loop of `createNodesWithWidget` makes no forward
progress on the text `"a"`: the matched literal is empty, the remaining text
is unchanged, and the computation never completes, whatever the fuel. -/
theorem createNodesWithWidget_diverges_cex : segDivergesOnZeroMatch := by
  intro fuel
  cases fuel with
  | zero => rfl
  | succ f =>
    show segRun [zeroRule] f (SegCall.loop zeroRule 0 ['a'] []) = none
    exact zeroRule_loop_diverges f []

/-- `search` never reports a position beyond the end of the text. -/
theorem patSearch_le {p : Pattern} :
    ∀ {t : List Char} {i : Nat}, patSearch p t = some i → i ≤ t.length
  | [], i, h => by
    rw [patSearch] at h
    split at h
    · cases h
      exact Nat.le_refl 0
    · exact absurd h (by simp)
  | c :: cs, i, h => by
    rw [patSearch] at h
    split at h
    · cases h
      exact Nat.zero_le _
    · rcases Option.map_eq_some'.mp h with ⟨j, hj, hji⟩
      subst hji
      have := patSearch_le hj
      simp only [List.length_cons]
      omega

/-- Termination of the loop of the segmentation engine when the rule at
`ruleIndex` only produces non-empty in-bounds matches, given termination of
the engine at the next rule index. -/
theorem segTerm_loop {α : Type} {rules : List (WidgetRule α)} {r : WidgetRule α}
    (hpos : ∀ l n, r.rule l = some n → 1 ≤ n ∧ n ≤ l.length) (ruleIndex : Nat)
    (hnext : ∀ (t : List Char), ∃ fuel res,
      segRun rules fuel (SegCall.top t (ruleIndex + 1)) = some res) :
    ∀ (n : Nat) (text : List Char), text.length ≤ n → ∀ (nodes : List PmNode),
      ∃ fuel res, segRun rules fuel (SegCall.loop r ruleIndex text nodes) = some res
  | 0, text, hlen, nodes => by
    have htext : text = [] := List.eq_nil_of_length_eq_zero (Nat.le_zero.mp hlen)
    subst htext
    have hnone : patSearch r.rule [] = none := by
      rw [patSearch]
      cases hm : r.rule [] with
      | none => simp
      | some m =>
        have := hpos [] m hm
        simp at this
        omega
    refine ⟨1, nodes, ?_⟩
    rw [segRun_loop_step]
    simp [hnone]
  | n + 1, text, hlen, nodes => by
    cases hs : patSearch r.rule text with
    | none =>
      by_cases ht : text = []
      · refine ⟨1, nodes, ?_⟩
        rw [segRun_loop_step]
        simp only [hs, if_pos ht]
      · rcases hnext text with ⟨f1, res1, hres1⟩
        refine ⟨f1 + 1, nodes ++ res1, ?_⟩
        rw [segRun_loop_step]
        simp only [hs, if_neg ht, hres1, Option.map_some']
    | some index =>
      have hps := patSearch_some hs
      rcases Option.isSome_iff_exists.mp hps with ⟨m, hm⟩
      have hmb := hpos _ m hm
      have hsearch1 : patSearch r.rule (text.drop index) = some 0 := patSearch_head hps
      have hpm : pmatchFirst r.rule (text.drop index) =
          some ((text.drop index).take m) := by
        simp only [pmatchFirst, hsearch1, List.drop_zero, hm]
      have hlit : ((text.drop index).take m).length = m := by
        rw [List.length_take]
        exact Nat.min_eq_left hmb.2
      have hmlen : m ≤ text.length - index := by
        have := hmb.2
        rwa [List.length_drop] at this
      have hnew : ((text.drop index).drop ((text.drop index).take m).length).length
          ≤ n := by
        rw [hlit, List.length_drop, List.length_drop]
        have hm1 : 1 ≤ m := hmb.1
        omega
      by_cases hp : text.take index = []
      · rcases segTerm_loop hpos ruleIndex hnext n
          ((text.drop index).drop ((text.drop index).take m).length) hnew
          (nodes ++ [PmNode.widget (widgetKey ruleIndex)
            (createWidgetContent (widgetKey ruleIndex) ((text.drop index).take m))])
          with ⟨f2, res2, hres2⟩
        refine ⟨f2 + 1, res2, ?_⟩
        rw [segRun_loop_step]
        simp only [hs, if_pos hp, hpm]
        exact hres2
      · rcases hnext (text.take index) with ⟨f1, res1, hres1⟩
        rcases segTerm_loop hpos ruleIndex hnext n
          ((text.drop index).drop ((text.drop index).take m).length) hnew
          ((nodes ++ res1) ++ [PmNode.widget (widgetKey ruleIndex)
            (createWidgetContent (widgetKey ruleIndex) ((text.drop index).take m))])
          with ⟨f2, res2, hres2⟩
        refine ⟨max f1 f2 + 1, res2, ?_⟩
        rw [segRun_loop_step]
        have hres1m : segRun rules (max f1 f2)
            (SegCall.top (text.take index) (ruleIndex + 1)) = some res1 :=
          segRun_mono_le (Nat.le_max_left f1 f2) hres1
        have hres2m : segRun rules (max f1 f2) (SegCall.loop r ruleIndex
            ((text.drop index).drop ((text.drop index).take m).length)
            ((nodes ++ res1) ++ [PmNode.widget (widgetKey ruleIndex)
              (createWidgetContent (widgetKey ruleIndex) ((text.drop index).take m))])) =
            some res2 :=
          segRun_mono_le (Nat.le_max_right f1 f2) hres2
        simp only [hs, if_neg hp, hres1m, Option.map_some', hpm]
        exact hres2m

/-- Termination of the segmentation engine from any rule index, when every
registered rule only produces non-empty in-bounds matches. -/
theorem segTerm_top {α : Type} {rules : List (WidgetRule α)}
    (hpos : ∀ r ∈ rules, ∀ l n, r.rule l = some n → 1 ≤ n ∧ n ≤ l.length) :
    ∀ (k ri : Nat), rules.length ≤ ri + k → ∀ (t : List Char),
      ∃ fuel res, segRun rules fuel (SegCall.top t ri) = some res
  | 0, ri, hk, t => by
    have hget : rules.get? ri = none := by
      rw [List.get?_eq_none]
      omega
    have hlt : ¬(ri < rules.length - 1) := by omega
    by_cases ht : unwrapWidgetSyntax t = []
    · exact ⟨1, [], by rw [segRun_top_step]; simp only [hget, if_pos ht]⟩
    · exact ⟨1, [PmNode.text (unwrapWidgetSyntax t)],
        by rw [segRun_top_step]; simp only [hget, if_neg ht, if_neg hlt]⟩
  | k + 1, ri, hk, t => by
    cases hget : rules.get? ri with
    | none =>
      have hlen : rules.length ≤ ri := List.get?_eq_none.mp hget
      have hlt : ¬(ri < rules.length - 1) := by omega
      by_cases ht : unwrapWidgetSyntax t = []
      · exact ⟨1, [], by rw [segRun_top_step]; simp only [hget, if_pos ht]⟩
      · exact ⟨1, [PmNode.text (unwrapWidgetSyntax t)],
          by rw [segRun_top_step]; simp only [hget, if_neg ht, if_neg hlt]⟩
    | some r =>
      have hrmem : r ∈ rules := List.get?_mem hget
      have hnext : ∀ (t' : List Char), ∃ fuel res,
          segRun rules fuel (SegCall.top t' (ri + 1)) = some res :=
        fun t' => segTerm_top hpos k (ri + 1) (by omega) t'
      by_cases htest : patTest r.rule (unwrapWidgetSyntax t)
      · rcases segTerm_loop (hpos r hrmem) ri hnext (unwrapWidgetSyntax t).length
          (unwrapWidgetSyntax t) (Nat.le_refl _) [] with ⟨f, res, hres⟩
        exact ⟨f + 1, res,
          by rw [segRun_top_step]; simp only [hget, if_pos htest]; exact hres⟩
      · by_cases ht : unwrapWidgetSyntax t = []
        · exact ⟨1, [],
            by rw [segRun_top_step]; simp only [hget, if_neg htest, if_pos ht]⟩
        · by_cases hlt : ri < rules.length - 1
          · rcases hnext (unwrapWidgetSyntax t) with ⟨f, res, hres⟩
            exact ⟨f + 1, res, by
              rw [segRun_top_step]
              simp only [hget, if_neg htest, if_neg ht, if_pos hlt]
              exact hres⟩
          · exact ⟨1, [PmNode.text (unwrapWidgetSyntax t)], by
              rw [segRun_top_step]
              simp only [hget, if_neg htest, if_neg ht, if_neg hlt]⟩

/-- C7 (amended): `createNodesWithWidget` terminates on every input text and
rule index whenever every registered rule's pattern only matches non-empty
in-bounds spans (each loop iteration then consumes at least one character);
with a rule that can match a zero-length span the inner loop makes no forward
progress and never completes (`createNodesWithWidget_diverges_cex`). -/
theorem createNodesWithWidget_terminates {α : Type} (rules : List (WidgetRule α))
    (hpos : ∀ r ∈ rules, ∀ l n, r.rule l = some n → 1 ≤ n ∧ n ≤ l.length)
    (text : List Char) (ruleIndex : Nat) :
    ∃ fuel res, createNodesWithWidgetF rules fuel text ruleIndex = some res :=
  segTerm_top hpos rules.length ruleIndex (by omega) text

/-- The scenario rule `/\$\S+/` only matches non-empty in-bounds spans. -/
theorem dollarPat_bounds {l : List Char} {n : Nat} (h : dollarPat l = some n) :
    1 ≤ n ∧ n ≤ l.length := by
  unfold dollarPat at h
  split at h
  · rename_i rest
    split at h
    · exact absurd h (by simp)
    · have hn := Option.some.inj h
      have hb : (rest.takeWhile (fun c => !(isJsSpace c))).length ≤ rest.length :=
        (List.takeWhile_sublist _).length_le
      simp only [List.length_cons]
      omega
  · exact absurd h (by simp)

/-- Witness for `createNodesWithWidget_terminates` with the concrete rule
`/\$\S+/` on a concrete text. -/
theorem createNodesWithWidget_terminates_witness :
    ∃ fuel res, createNodesWithWidgetF [(⟨dollarPat, fun _ => ()⟩ : WidgetRule Unit)]
      fuel "$a b".toList 0 = some res :=
  createNodesWithWidget_terminates [⟨dollarPat, fun _ => ()⟩]
    (by
      intro r hr l n hl
      rw [List.mem_singleton] at hr
      subst hr
      exact dollarPat_bounds hl)
    "$a b".toList 0

/-! ### Claim C9: the widget content extractor -/

theorem gwcGo_nil (getText : MdNode → List Char) (w : MdNode) :
    gwcGo getText w [] = [] := by
  simp [gwcGo]

/-- An entering event of a plain-text node appends its literal. -/
theorem gwcGo_text_step (getText : MdNode → List Char) (w : MdNode) (lit : List Char)
    (rest : List (MdNode × Bool)) :
    gwcGo getText w ((MdNode.text lit, true) :: rest) = lit ++ gwcGo getText w rest := by
  simp [gwcGo, mdType, mdLiteral]

/-- The entering event of the widget node itself appends nothing. -/
theorem gwcGo_enter_root (getText : MdNode → List Char) (w : MdNode)
    (rest : List (MdNode × Bool)) (hty : mdType w ≠ "text".toList) :
    gwcGo getText w ((w, true) :: rest) = gwcGo getText w rest := by
  have hty' : mdType w ≠ ['t', 'e', 'x', 't'] := by simpa using hty
  simp [gwcGo, hty']

/-- A non-entering event appends nothing. -/
theorem gwcGo_exit_step (getText : MdNode → List Char) (w node : MdNode)
    (rest : List (MdNode × Bool)) :
    gwcGo getText w ((node, false) :: rest) = gwcGo getText w rest := by
  simp [gwcGo]

/-- An entering event of a non-text node other than the widget node appends
the externally extracted text and repositions the walker at the widget node's
exit event, discarding the pending events. -/
theorem gwcGo_nontext_step (getText : MdNode → List Char) (w node : MdNode)
    (rest : List (MdNode × Bool)) (hne : node ≠ w) (hty : mdType node ≠ "text".toList) :
    gwcGo getText w ((node, true) :: rest) =
      getText node ++ gwcGo getText w ((eventsFrom (dfsEvents w) (w, false)).tail) := by
  have hty' : mdType node ≠ ['t', 'e', 'x', 't'] := by simpa using hty
  simp [gwcGo, hne, hty']

/-- Processing the event streams of a prefix of plain-text children appends
their literals in order. -/
theorem gwcGo_text_children (getText : MdNode → List Char) (w : MdNode) :
    ∀ (ts : List (List Char)) (tail : List (MdNode × Bool)),
      gwcGo getText w (dfsEventsList (ts.map MdNode.text) ++ tail) =
        ts.flatten ++ gwcGo getText w tail
  | [], tail => by simp [dfsEventsList]
  | lit :: ts, tail => by
    simp only [List.map_cons, dfsEventsList, dfsEvents, List.singleton_append,
      List.cons_append, List.nil_append]
    rw [gwcGo_text_step, gwcGo_text_children getText w ts tail]
    simp [List.append_assoc]

theorem dfsEventsList_append : ∀ (l1 l2 : List MdNode),
    dfsEventsList (l1 ++ l2) = dfsEventsList l1 ++ dfsEventsList l2
  | [], l2 => by simp [dfsEventsList]
  | c :: cs, l2 => by
    rw [List.cons_append]
    rw [dfsEventsList]
    rw [dfsEventsList]
    rw [dfsEventsList_append cs l2, List.append_assoc]

theorem mdSize_le_of_mem {c : MdNode} : ∀ {cs : List MdNode}, c ∈ cs →
    mdSize c ≤ mdSizeList cs := by
  intro cs h
  induction cs with
  | nil => simp at h
  | cons d ds ih =>
    rcases List.mem_cons.mp h with he | hm
    · subst he
      rw [mdSizeList]
      omega
    · have := ih hm
      rw [mdSizeList]
      omega

/-- C9: if the child sequence of the widget node consists of plain-text
children followed by a non-text child (and then anything), the extractor
returns the concatenation of the text children's literals followed by the
externally extracted text of that first non-text child, and nothing else:
after that child the walker is repositioned at the widget node's own exit
event, so every later sibling contributes nothing. -/
theorem getWidgetContent_stops (getText : MdNode → List Char) (wty ty : List Char)
    (ts : List (List Char)) (cs : List MdNode) (rest : List MdNode)
    (hwty : wty ≠ "text".toList) (hty : ty ≠ "text".toList) :
    getWidgetContent getText
        (MdNode.container wty (ts.map MdNode.text ++ MdNode.container ty cs :: rest)) =
      ts.flatten ++ getText (MdNode.container ty cs) := by
  have hw : mdType (MdNode.container wty
      (ts.map MdNode.text ++ MdNode.container ty cs :: rest)) ≠ "text".toList := by
    simpa [mdType] using hwty
  rw [getWidgetContent, dfsEvents, List.cons_append, gwcGo_enter_root _ _ _ hw,
    dfsEventsList_append]
  rw [dfsEventsList]
  rw [List.append_assoc]
  rw [gwcGo_text_children]
  have hmem : MdNode.container ty cs ∈
      ts.map MdNode.text ++ MdNode.container ty cs :: rest :=
    List.mem_append_right _ (List.mem_cons_self _ _)
  have hne : MdNode.container ty cs ≠ MdNode.container wty
      (ts.map MdNode.text ++ MdNode.container ty cs :: rest) := by
    intro he
    have h2 := mdSize_le_of_mem hmem
    have h3 : mdSize (MdNode.container ty cs) =
        1 + mdSizeList (ts.map MdNode.text ++ MdNode.container ty cs :: rest) := by
      conv_lhs => rw [he]
      rw [mdSize]
    omega
  have htyc : mdType (MdNode.container ty cs) ≠ "text".toList := by
    simpa [mdType] using hty
  rw [dfsEvents, List.cons_append, List.cons_append, List.cons_append,
    gwcGo_nontext_step _ _ _ _ hne htyc, eventsFrom_exit_tail, gwcGo_nil]
  simp

/-- Witness for `getWidgetContent_stops`: widget subtree
`[text "foo", emphasis [text "bar"], text "zzz"]` with a constant external
extractor. -/
theorem getWidgetContent_stops_witness :
    getWidgetContent (fun _ => "E".toList)
        (MdNode.container "customInline".toList
          (["foo".toList].map MdNode.text ++
            MdNode.container "emph".toList [MdNode.text "bar".toList] ::
              [MdNode.text "zzz".toList])) =
      ["foo".toList].flatten ++
        (fun _ => "E".toList) (MdNode.container "emph".toList [MdNode.text "bar".toList]) :=
  getWidgetContent_stops (fun _ => "E".toList) "customInline".toList "emph".toList
    ["foo".toList] [MdNode.text "bar".toList] [MdNode.text "zzz".toList]
    (by decide) (by decide)
